import Mathlib

/-!
Verification of the VRPTW solver (`app.py`): sweep clustering,
time-window route evaluation, and the genetic optimizer.

Numeric modelling: Python numbers carrying exact data (coordinates,
demands, time windows, rates) are modelled as rationals; quantities
produced by `math.sqrt` (distances, hence travel times, penalties and
fitness) live in the reals.  The polar angle `angulo` is set by the
source at construction to `atan2 y x`; only its ordering is ever used
(as the sort key of the sweep), so it is carried as a stored rational
field of the record, exactly as the Python object stores it.
-/

/-- A customer record (`class Cliente`): id, name, position, demand,
time window, and the stored polar angle computed at construction. -/
structure Cliente where
  id : ℤ
  nombre : String
  x : ℚ
  y : ℚ
  demanda : ℚ
  ventana_inicio : ℚ
  ventana_fin : ℚ
  angulo : ℚ
deriving DecidableEq, Repr

/-- The depot (`class Deposito`): position and service window. -/
structure Deposito where
  x : ℚ
  y : ℚ
  ventana_inicio : ℚ
  ventana_fin : ℚ
deriving DecidableEq, Repr

/-- Position of a customer, as the pair used by `distancia`. -/
def Cliente.pos (c : Cliente) : ℚ × ℚ := (c.x, c.y)

/-- Position of the depot. -/
def Deposito.pos (d : Deposito) : ℚ × ℚ := (d.x, d.y)

/-- Euclidean distance between two points (`distancia`); the source
duck-types over `Cliente`/`Deposito`, here both are read through `pos`. -/
noncomputable def distancia (p q : ℚ × ℚ) : ℝ :=
  Real.sqrt (((p.1 : ℝ) - (q.1 : ℝ)) ^ 2 + ((p.2 : ℝ) - (q.2 : ℝ)) ^ 2)

/-- The loop of `agrupar_clientes`: walk the angle-sorted customers,
keeping the open group `grupo_actual` and its accumulated demand
`capacidad_actual`; close the group when the next customer would
overflow the capacity, and append the final open group if non-empty. -/
def agruparAux (capacidad_vehiculo : ℚ) :
    List Cliente → List (List Cliente) → List Cliente → ℚ → List (List Cliente)
  | [], grupos, grupo_actual, _ =>
      if grupo_actual ≠ [] then grupos ++ [grupo_actual] else grupos
  | cliente :: resto, grupos, grupo_actual, capacidad_actual =>
      if capacidad_actual + cliente.demanda ≤ capacidad_vehiculo then
        agruparAux capacidad_vehiculo resto grupos (grupo_actual ++ [cliente])
          (capacidad_actual + cliente.demanda)
      else
        agruparAux capacidad_vehiculo resto (grupos ++ [grupo_actual]) [cliente]
          cliente.demanda

/-- `agrupar_clientes`: sort customers by their stored polar angle
(Python's `sorted`, a stable sort by key, modelled by the stable
`List.insertionSort`) and sweep them into capacity-bounded groups. -/
def agrupar_clientes (clientes : List Cliente) (capacidad_vehiculo : ℚ) :
    List (List Cliente) :=
  agruparAux capacidad_vehiculo
    (clientes.insertionSort (fun a b => a.angulo ≤ b.angulo)) [] [] 0

example : agrupar_clientes [] 10 = [] := by decide

/-- One entry of the `detalles` schedule built by `evaluar_ruta`: either
`(cliente, tiempo_llegada, tiempo_espera)` for a customer stop, or the
final `("Deposito", tiempo, 0)` return entry. -/
inductive Detalle where
  | cliente (c : Cliente) (llegada : ℝ) (espera : ℝ)
  | deposito (llegada : ℝ) (espera : ℝ)

/-- The running state of `evaluar_ruta`'s loop: accumulated distance,
current time, accumulated penalty, the schedule so far, and the previous
point. -/
structure EvalState where
  distancia_total : ℝ
  tiempo_actual : ℝ
  penalizacion : ℝ
  detalles : List Detalle
  punto_anterior : ℚ × ℚ

/-- The body of `evaluar_ruta`'s `for cliente in ruta` loop: travel to
the customer, wait until the window opens if early, accrue a lateness
penalty (the source checks the post-wait arrival time), and record the
stop. -/
noncomputable def pasoCliente (s : EvalState) (cliente : Cliente) : EvalState :=
  let d := distancia s.punto_anterior cliente.pos
  let tiempo_viaje := d
  let llegada_bruta := s.tiempo_actual + tiempo_viaje
  let tiempo_llegada :=
    if llegada_bruta < (cliente.ventana_inicio : ℝ) then (cliente.ventana_inicio : ℝ)
    else llegada_bruta
  let tiempo_espera :=
    if llegada_bruta < (cliente.ventana_inicio : ℝ) then
      (cliente.ventana_inicio : ℝ) - llegada_bruta
    else 0
  let pen :=
    if (cliente.ventana_fin : ℝ) < tiempo_llegada then
      (tiempo_llegada - (cliente.ventana_fin : ℝ)) * 1000
    else 0
  { distancia_total := s.distancia_total + d
    tiempo_actual := tiempo_llegada
    penalizacion := s.penalizacion + pen
    detalles := s.detalles ++ [Detalle.cliente cliente tiempo_llegada tiempo_espera]
    punto_anterior := cliente.pos }

/-- The initial state of `evaluar_ruta`: the vehicle stands at the depot
at the depot's opening time, with nothing accumulated. -/
def estadoInicial (deposito : Deposito) : EvalState :=
  { distancia_total := 0
    tiempo_actual := (deposito.ventana_inicio : ℝ)
    penalizacion := 0
    detalles := []
    punto_anterior := deposito.pos }

/-- `evaluar_ruta`: simulate the route at unit speed, then add the
return leg to the depot; returns
`(fitness, distancia_total, penalizacion, detalles)`. -/
noncomputable def evaluar_ruta (ruta : List Cliente) (deposito : Deposito) :
    ℝ × ℝ × ℝ × List Detalle :=
  let s := ruta.foldl pasoCliente (estadoInicial deposito)
  let d := distancia s.punto_anterior deposito.pos
  let distancia_total := s.distancia_total + d
  let tiempo_final := s.tiempo_actual + d
  let detalles := s.detalles ++ [Detalle.deposito tiempo_final 0]
  let fitness := distancia_total + s.penalizacion
  (fitness, distancia_total, s.penalizacion, detalles)

/-- The fill loop of `cruce_ordenado`: walk `padre2`; every gene not yet
present in `hijo` is written at position `pos`, which then advances
circularly modulo `tamano`. -/
def fillLoop (tamano : ℕ) :
    List Cliente → List (Option Cliente) → ℕ → List (Option Cliente)
  | [], hijo, _ => hijo
  | gen :: resto, hijo, pos =>
      if some gen ∈ hijo then fillLoop tamano resto hijo pos
      else fillLoop tamano resto (hijo.set pos (some gen)) ((pos + 1) % tamano)

/-- `cruce_ordenado` (order crossover, OX) given the two sorted cut
indices `inicio ≤ fin` that the source draws via
`sorted(random.sample(range(tamano), 2))`: start from `[None] * tamano`,
slice-assign `padre1[inicio:fin+1]` at those positions, then fill the
rest from `padre2` starting after `fin`, wrapping circularly.  The child
is a list of optional genes, as in the source, where unfilled slots hold
`None`. -/
def cruce_ordenado (padre1 padre2 : List Cliente) (inicio fin : ℕ) :
    List (Option Cliente) :=
  let tamano := padre1.length
  let vacio : List (Option Cliente) := List.replicate tamano none
  let hijo := vacio.take inicio ++ ((padre1.take (fin + 1)).drop inicio).map some
      ++ vacio.drop (fin + 1)
  fillLoop tamano padre2 hijo ((fin + 1) % tamano)

/-- Python's simultaneous swap `l[i], l[j] = l[j], l[i]`; indices out of
range cannot occur at the call site (`i` ranges over the list, `j` comes
from `randint(0, len-1)`). -/
def pySwap (l : List Cliente) (i j : ℕ) : List Cliente :=
  match l[i]?, l[j]? with
  | some a, some b => (l.set i b).set j a
  | _, _ => l

/-- The ambient `random` module, modelled as an oracle threading a state
`σ`, together with the documented behaviour of each primitive that the
program relies on (`random.random() ∈ [0,1)`, `randint` inclusive
bounds, `sample` drawing distinct elements, `shuffle` permuting). -/
structure Oracle (σ : Type) where
  randFloat : σ → ℚ × σ
  randint : ℕ → ℕ → σ → ℕ × σ
  sample2 : ℕ → σ → (ℕ × ℕ) × σ
  sampleIdx : ℕ → ℕ → σ → List ℕ × σ
  shuffle : List Cliente → σ → List Cliente × σ
  randFloat_mem : ∀ s, 0 ≤ (randFloat s).1 ∧ (randFloat s).1 < 1
  randint_mem : ∀ a b s, a ≤ b → a ≤ (randint a b s).1 ∧ (randint a b s).1 ≤ b
  sample2_mem : ∀ n s, 2 ≤ n →
    (sample2 n s).1.1 < n ∧ (sample2 n s).1.2 < n ∧ (sample2 n s).1.1 ≠ (sample2 n s).1.2
  sampleIdx_mem : ∀ n k s, k ≤ n →
    (sampleIdx n k s).1.length = k ∧ (∀ i ∈ (sampleIdx n k s).1, i < n) ∧
      (sampleIdx n k s).1.Nodup
  shuffle_perm : ∀ l s, ((shuffle l s).1).Perm l

/-- The loop of `mutacion_intercambio` over the index range: with
probability `tasa_mutacion` swap position `i` with a random position. -/
def mutLoop {σ : Type} (o : Oracle σ) (tasa_mutacion : ℚ) (n : ℕ) :
    List ℕ → List Cliente → σ → List Cliente × σ
  | [], individuo, s => (individuo, s)
  | i :: resto, individuo, s =>
      let r := o.randFloat s
      if r.1 < tasa_mutacion then
        let j := o.randint 0 (n - 1) r.2
        mutLoop o tasa_mutacion n resto (pySwap individuo i j.1) j.2
      else
        mutLoop o tasa_mutacion n resto individuo r.2

/-- `mutacion_intercambio`: copy the individual, then for each position
`i` in `range(len)` swap it with `randint(0, len-1)` with probability
`tasa_mutacion`. -/
def mutacion_intercambio {σ : Type} (o : Oracle σ) (individuo : List Cliente)
    (tasa_mutacion : ℚ) (s : σ) : List Cliente × σ :=
  mutLoop o tasa_mutacion individuo.length (List.range individuo.length) individuo s

/-- `crear_poblacion_inicial`'s loop: `tamano_poblacion` shuffled copies
of the customer list, appended in order. -/
def crearLoop {σ : Type} (o : Oracle σ) (clientes : List Cliente) :
    ℕ → List (List Cliente) → σ → List (List Cliente) × σ
  | 0, acc, s => (acc, s)
  | n + 1, acc, s =>
      let r := o.shuffle clientes s
      crearLoop o clientes n (acc ++ [r.1]) r.2

/-- `crear_poblacion_inicial`. -/
def crear_poblacion_inicial {σ : Type} (o : Oracle σ) (clientes : List Cliente)
    (tamano_poblacion : ℕ) (s : σ) : List (List Cliente) × σ :=
  crearLoop o clientes tamano_poblacion [] s

/-- Python's `min` over a list: `None` on the empty list stands for the
`ValueError` that `min([])` raises; on a non-empty list it is the left
fold of binary `min`. -/
noncomputable def pyMin (l : List ℝ) : Option ℝ :=
  match l with
  | [] => none
  | x :: xs => some (xs.foldl min x)

/-- `seleccion_por_torneo` with explicit tournament size (the source
always uses the default 3): sample `tamano_torneo` distinct positions of
`zip(poblacion, fitnesses)`, stable-sort the sampled pairs by fitness and
return (a deep copy of) the individual of the first; `None` models the
`ValueError` that `random.sample` raises when the population is smaller
than the tournament. -/
noncomputable def seleccion_por_torneo {σ : Type} (o : Oracle σ)
    (poblacion : List (List Cliente)) (fitnesses : List ℝ) (tamano_torneo : ℕ)
    (s : σ) : Option (List Cliente × σ) :=
  let pares := poblacion.zip fitnesses
  if tamano_torneo ≤ pares.length then
    let r := o.sampleIdx pares.length tamano_torneo s
    let seleccionados := r.1.filterMap (fun i => pares[i]?)
    match seleccionados.insertionSort (fun a b => a.2 ≤ b.2) with
    | [] => none
    | mejor :: _ => some (mejor.1, r.2)
  else none

/-- The crossover step of the reproduction loop: `cruce_ordenado` with
cut points `sorted(random.sample(range(tamano), 2))`; `None` models the
`ValueError` that `random.sample(range(tamano), 2)` raises when
`tamano < 2`.  For parents that are permutations of a common
duplicate-free gene set the child is fully filled (see
`cruce_ordenado_permutacion`), so reading the filled genes out of the
optional slots is the identity there. -/
def cruceEnAlgoritmo {σ : Type} (o : Oracle σ) (padre1 padre2 : List Cliente)
    (s : σ) : Option (List Cliente × σ) :=
  let tamano := padre1.length
  if 2 ≤ tamano then
    let r := o.sample2 tamano s
    let inicio := min r.1.1 r.1.2
    let fin := max r.1.1 r.1.2
    some ((cruce_ordenado padre1 padre2 inicio fin).reduceOption, r.2)
  else none

/-- The body of the new-population loop of `algoritmo_genetico`: select
two parents by tournament, cross them with probability `tasa_cruce`
(otherwise clone parent 1), then always mutate. -/
noncomputable def reproducirLoop {σ : Type} (o : Oracle σ)
    (poblacion : List (List Cliente)) (fitnesses : List ℝ)
    (tasa_cruce tasa_mutacion : ℚ) :
    ℕ → List (List Cliente) → σ → Option (List (List Cliente) × σ)
  | 0, acc, s => some (acc, s)
  | n + 1, acc, s => do
      let p1 ← seleccion_por_torneo o poblacion fitnesses 3 s
      let p2 ← seleccion_por_torneo o poblacion fitnesses 3 p1.2
      let r := o.randFloat p2.2
      let hijo ←
        if r.1 < tasa_cruce then cruceEnAlgoritmo o p1.1 p2.1 r.2
        else some (p1.1, r.2)
      let mutado := mutacion_intercambio o hijo.1 tasa_mutacion hijo.2
      reproducirLoop o poblacion fitnesses tasa_cruce tasa_mutacion n
        (acc ++ [mutado.1]) mutado.2

/-- The per-cluster state of `algoritmo_genetico` between generations:
the current population, the best-so-far snapshot (`None`/`float('inf')`
initially), and the random state. -/
structure GAState (σ : Type) where
  poblacion : List (List Cliente)
  mejor_individuo : Option (List Cliente)
  mejor_fitness : WithTop ℝ
  rng : σ

/-- One generation of `algoritmo_genetico`: evaluate every individual,
fetch the index of the minimal fitness (`fitnesses.index(min(...))`,
where `min([])` raising `ValueError` is modelled by `None`), update the
best-so-far snapshot on strict improvement, and build the next
population. -/
noncomputable def genStep {σ : Type} (o : Oracle σ) (deposito : Deposito)
    (tamano_poblacion : ℕ) (tasa_cruce tasa_mutacion : ℚ) (st : GAState σ) :
    Option (GAState σ) :=
  let fitnesses := st.poblacion.map (fun ind => (evaluar_ruta ind deposito).1)
  match pyMin fitnesses with
  | none => none
  | some m =>
      let indice_mejor := fitnesses.indexOf m
      let fitness_actual := fitnesses.getD indice_mejor 0
      let mejor :=
        if (fitness_actual : WithTop ℝ) < st.mejor_fitness then
          (some (st.poblacion.getD indice_mejor []), (fitness_actual : WithTop ℝ))
        else (st.mejor_individuo, st.mejor_fitness)
      match reproducirLoop o st.poblacion fitnesses tasa_cruce tasa_mutacion
          tamano_poblacion [] st.rng with
      | none => none
      | some nueva => some ⟨nueva.1, mejor.1, mejor.2, nueva.2⟩

/-- Iterate `genStep` for the given number of generations; a `None`
anywhere models the whole run dying with an uncaught exception. -/
noncomputable def iterarGeneraciones {σ : Type} (o : Oracle σ)
    (deposito : Deposito) (tamano_poblacion : ℕ) (tasa_cruce tasa_mutacion : ℚ) :
    ℕ → GAState σ → Option (GAState σ)
  | 0, st => some st
  | n + 1, st =>
      match genStep o deposito tamano_poblacion tasa_cruce tasa_mutacion st with
      | none => none
      | some st2 => iterarGeneraciones o deposito tamano_poblacion tasa_cruce
          tasa_mutacion n st2

/-- `algoritmo_genetico`: build the initial population, run the
generations, and return `(mejor_individuo, mejor_fitness)`. -/
noncomputable def algoritmo_genetico {σ : Type} (o : Oracle σ)
    (clientes : List Cliente) (deposito : Deposito)
    (tamano_poblacion generaciones : ℕ) (tasa_cruce tasa_mutacion : ℚ) (s : σ) :
    Option (Option (List Cliente) × WithTop ℝ) :=
  let pob := crear_poblacion_inicial o clientes tamano_poblacion s
  (iterarGeneraciones o deposito tamano_poblacion tasa_cruce tasa_mutacion
      generaciones ⟨pob.1, none, ⊤, pob.2⟩).map
    (fun st => (st.mejor_individuo, st.mejor_fitness))

/-- A concrete deterministic instance of the `random` oracle, used to
exercise the genetic-algorithm theorems on explicit inputs. -/
def trivOracle : Oracle Unit where
  randFloat _ := (0, ())
  randint a _ _ := (a, ())
  sample2 _ _ := ((0, 1), ())
  sampleIdx _ k _ := (List.range k, ())
  shuffle l _ := (l, ())
  randFloat_mem _ := by constructor <;> norm_num
  randint_mem a b s h := ⟨le_refl a, h⟩
  sample2_mem n s h := by
    refine ⟨?_, ?_, ?_⟩ <;> dsimp only <;> omega
  sampleIdx_mem n k s h := by
    refine ⟨?_, ?_, ?_⟩
    · exact List.length_range k
    · intro i hi
      exact lt_of_lt_of_le (List.mem_range.mp hi) h
    · exact List.nodup_range k
  shuffle_perm l s := List.Perm.refl l

/-- A sample customer for concrete instantiations. -/
def clienteA : Cliente := ⟨1, "A", 10, 0, 20, 540, 660, 0⟩

/-- A second sample customer. -/
def clienteB : Cliente := ⟨2, "B", 8, 8, 30, 600, 720, 1⟩

/-- A customer whose demand 101 exceeds the example capacity 100. -/
def clienteGrande : Cliente := ⟨3, "G", 1, 1, 101, 0, 100, 0⟩

section Agrupamiento

/-- Concatenating the groups produced by the sweep loop yields exactly the
already-closed groups, the open group, and the customers still to visit. -/
theorem agruparAux_flatten (cap : ℚ) :
    ∀ (resto : List Cliente) (grupos : List (List Cliente))
      (ga : List Cliente) (capa : ℚ),
      (agruparAux cap resto grupos ga capa).flatten = grupos.flatten ++ ga ++ resto
  | [], grupos, ga, capa => by
      by_cases h : ga = [] <;> simp [agruparAux, h]
  | c :: resto, grupos, ga, capa => by
      rw [agruparAux]
      by_cases h : capa + c.demanda ≤ cap
      · rw [if_pos h, agruparAux_flatten cap resto]
        simp
      · rw [if_neg h, agruparAux_flatten cap resto]
        simp

/-- C1 — Partition property: for distinct customers, the clusters of
`agrupar_clientes` concatenate to a permutation of the input list (each
customer appears exactly once across all clusters) and are pairwise
disjoint, for every capacity. -/
theorem agrupar_clientes_particion (clientes : List Cliente) (cap : ℚ)
    (h : clientes.Nodup) :
    ((agrupar_clientes clientes cap).flatten).Perm clientes ∧
      (agrupar_clientes clientes cap).Pairwise List.Disjoint := by
  have hperm : ((agrupar_clientes clientes cap).flatten).Perm clientes := by
    unfold agrupar_clientes
    rw [agruparAux_flatten]
    simpa using List.perm_insertionSort (fun a b => a.angulo ≤ b.angulo) clientes
  refine ⟨hperm, ?_⟩
  have hnodup : ((agrupar_clientes clientes cap).flatten).Nodup :=
    hperm.nodup_iff.mpr h
  exact (List.nodup_flatten.mp hnodup).2

/-- Witness for C1 on a concrete two-customer input. -/
theorem agrupar_clientes_particion_witness :
    ([clienteA, clienteB].Nodup) ∧
      (((agrupar_clientes [clienteA, clienteB] 100).flatten).Perm
          [clienteA, clienteB] ∧
        (agrupar_clientes [clienteA, clienteB] 100).Pairwise List.Disjoint) :=
  ⟨by decide, agrupar_clientes_particion [clienteA, clienteB] 100 (by decide)⟩

/-- The capacity invariant of the sweep loop: provided every
already-closed group and the open group satisfy it, every group the loop
ever emits has total demand within capacity or is a single over-capacity
customer. -/
theorem agruparAux_capacidad (cap : ℚ) :
    ∀ (resto : List Cliente) (grupos : List (List Cliente))
      (ga : List Cliente) (capa : ℚ),
      (∀ g ∈ grupos,
        (g.map Cliente.demanda).sum ≤ cap ∨ ∃ c, g = [c] ∧ cap < c.demanda) →
      capa = (ga.map Cliente.demanda).sum →
      ((ga.map Cliente.demanda).sum ≤ cap ∨ ∃ c, ga = [c] ∧ cap < c.demanda) →
      ∀ g ∈ agruparAux cap resto grupos ga capa,
        (g.map Cliente.demanda).sum ≤ cap ∨ ∃ c, g = [c] ∧ cap < c.demanda
  | [], grupos, ga, capa => by
      intro hg hcapa hga g hmem
      by_cases h : ga = []
      · rw [agruparAux, if_neg (by simp [h])] at hmem
        exact hg g hmem
      · rw [agruparAux, if_pos (by simpa using h)] at hmem
        rcases List.mem_append.mp hmem with hmem | hmem
        · exact hg g hmem
        · rw [List.mem_singleton.mp hmem]
          exact hga
  | c :: resto, grupos, ga, capa => by
      intro hg hcapa hga g hmem
      rw [agruparAux] at hmem
      by_cases h : capa + c.demanda ≤ cap
      · rw [if_pos h] at hmem
        refine agruparAux_capacidad cap resto grupos (ga ++ [c]) _ hg
          (by simpa using hcapa) ?_ g hmem
        left
        simpa using hcapa ▸ h
      · rw [if_neg h] at hmem
        refine agruparAux_capacidad cap resto (grupos ++ [ga]) [c] _ ?_ (by simp) ?_ g hmem
        · intro g2 hg2
          rcases List.mem_append.mp hg2 with hg2 | hg2
          · exact hg g2 hg2
          · rw [List.mem_singleton.mp hg2]
            exact hga
        · by_cases hd : c.demanda ≤ cap
          · left
            simpa using hd
          · exact Or.inr ⟨c, rfl, lt_of_not_le hd⟩

/-- C2 (amended) — Capacity property for nonnegative capacities: every
cluster has total demand at most the capacity, except a cluster that is a
single customer whose own demand exceeds the capacity. -/
theorem agrupar_clientes_capacidad (clientes : List Cliente) (cap : ℚ)
    (h0 : 0 ≤ cap) :
    ∀ g ∈ agrupar_clientes clientes cap,
      (g.map Cliente.demanda).sum ≤ cap ∨ ∃ c, g = [c] ∧ cap < c.demanda := by
  refine agruparAux_capacidad cap _ [] [] 0 (by simp) (by simp) (by simpa using h0)

/-- Witness for C2 (amended) at capacity 100 with an over-capacity
customer placed alone. -/
theorem agrupar_clientes_capacidad_witness :
    (0 : ℚ) ≤ 100 ∧
      ∀ g ∈ agrupar_clientes [clienteA, clienteGrande] 100,
        (g.map Cliente.demanda).sum ≤ 100 ∨ ∃ c, g = [c] ∧ 100 < c.demanda :=
  ⟨by norm_num,
    agrupar_clientes_capacidad [clienteA, clienteGrande] 100 (by norm_num)⟩

/-- C2 — counterexample to the claim as stated over every capacity: with
capacity `-1` the sweep emits the empty initial group, whose total
demand `0` exceeds the capacity while not being a single over-capacity
customer. -/
theorem agrupar_clientes_capacidad_contraejemplo :
    ¬ (∀ g ∈ agrupar_clientes [clienteA] (-1),
        (g.map Cliente.demanda).sum ≤ (-1 : ℚ) ∨
          ∃ c, g = [c] ∧ (-1 : ℚ) < c.demanda) := by
  intro h
  have hmem : ([] : List Cliente) ∈ agrupar_clientes [clienteA] (-1) := by
    norm_num [agrupar_clientes, agruparAux, List.insertionSort, clienteA]
  rcases h [] hmem with hle | ⟨c, hc, _⟩
  · norm_num at hle
  · exact List.cons_ne_nil c [] hc.symm

/-- The nonemptiness invariant of the sweep loop, valid when every
remaining customer fits in an empty vehicle: the open group is empty only
while nothing has been accumulated, so no emitted group is ever empty. -/
theorem agruparAux_no_vacio (cap : ℚ) :
    ∀ (resto : List Cliente) (grupos : List (List Cliente))
      (ga : List Cliente) (capa : ℚ),
      (∀ c ∈ resto, c.demanda ≤ cap) →
      (∀ g ∈ grupos, g ≠ []) →
      (ga = [] → capa = 0) →
      ∀ g ∈ agruparAux cap resto grupos ga capa, g ≠ []
  | [], grupos, ga, capa => by
      intro hresto hg hga g hmem
      by_cases h : ga = []
      · rw [agruparAux, if_neg (by simp [h])] at hmem
        exact hg g hmem
      · rw [agruparAux, if_pos (by simpa using h)] at hmem
        rcases List.mem_append.mp hmem with hmem | hmem
        · exact hg g hmem
        · rw [List.mem_singleton.mp hmem]
          exact h
  | c :: resto, grupos, ga, capa => by
      intro hresto hg hga g hmem
      rw [agruparAux] at hmem
      by_cases h : capa + c.demanda ≤ cap
      · rw [if_pos h] at hmem
        refine agruparAux_no_vacio cap resto grupos (ga ++ [c]) _
          (fun c2 hc2 => hresto c2 (List.mem_cons_of_mem c hc2)) hg
          (by simp) g hmem
      · rw [if_neg h] at hmem
        have hganil : ga ≠ [] := by
          intro hnil
          rw [hga hnil, zero_add] at h
          exact h (hresto c (List.mem_cons_self c resto))
        refine agruparAux_no_vacio cap resto (grupos ++ [ga]) [c] _
          (fun c2 hc2 => hresto c2 (List.mem_cons_of_mem c hc2)) ?_
          (by simp) g hmem
        intro g2 hg2
        rcases List.mem_append.mp hg2 with hg2 | hg2
        · exact hg g2 hg2
        · rw [List.mem_singleton.mp hg2]
          exact hganil

/-- The sweep loop returns a non-empty list of groups whenever customers
remain or the open group is non-empty. -/
theorem agruparAux_ne_nil (cap : ℚ) :
    ∀ (resto : List Cliente) (grupos : List (List Cliente))
      (ga : List Cliente) (capa : ℚ),
      resto ≠ [] ∨ ga ≠ [] →
      agruparAux cap resto grupos ga capa ≠ []
  | [], grupos, ga, capa => by
      intro h
      have hga : ga ≠ [] := by
        rcases h with h | h
        · exact absurd rfl h
        · exact h
      rw [agruparAux, if_pos (by simpa using hga)]
      simp
  | c :: resto, grupos, ga, capa => by
      intro _
      rw [agruparAux]
      by_cases h : capa + c.demanda ≤ cap
      · rw [if_pos h]
        exact agruparAux_ne_nil cap resto _ _ _ (Or.inr (by simp))
      · rw [if_neg h]
        exact agruparAux_ne_nil cap resto _ _ _ (Or.inr (by simp))

/-- C8 (amended) — when every customer's demand is at most the capacity,
every cluster returned by `agrupar_clientes` is non-empty; moreover the
final open cluster is emitted whenever it is non-empty, so a non-empty
input always yields at least one cluster. -/
theorem agrupar_clientes_no_vacio (clientes : List Cliente) (cap : ℚ)
    (hd : ∀ c ∈ clientes, c.demanda ≤ cap) :
    (∀ g ∈ agrupar_clientes clientes cap, g ≠ []) ∧
      (clientes ≠ [] → agrupar_clientes clientes cap ≠ []) := by
  constructor
  · refine agruparAux_no_vacio cap _ [] [] 0 ?_ (by simp) (fun _ => rfl)
    intro c hc
    exact hd c ((List.perm_insertionSort (fun a b => a.angulo ≤ b.angulo)
      clientes).mem_iff.mp hc)
  · intro hne
    refine agruparAux_ne_nil cap _ [] [] 0 (Or.inl ?_)
    intro hnil
    exact hne (List.eq_nil_of_length_eq_zero (by
      have := congrArg List.length hnil
      simpa using this))

/-- Witness for C8 (amended) on a concrete input within capacity. -/
theorem agrupar_clientes_no_vacio_witness :
    (∀ c ∈ [clienteA, clienteB], c.demanda ≤ (100 : ℚ)) ∧
      ((∀ g ∈ agrupar_clientes [clienteA, clienteB] 100, g ≠ []) ∧
        ([clienteA, clienteB] ≠ ([] : List Cliente) →
          agrupar_clientes [clienteA, clienteB] 100 ≠ [])) :=
  ⟨by decide, agrupar_clientes_no_vacio [clienteA, clienteB] 100 (by decide)⟩

/-- C8 — counterexample to the claim as stated: a single customer whose
demand 101 exceeds the capacity 100 makes the sweep emit an empty initial
cluster. -/
theorem agrupar_clientes_no_vacio_contraejemplo :
    ¬ (∀ g ∈ agrupar_clientes [clienteGrande] 100, g ≠ []) := by
  intro h
  have hmem : ([] : List Cliente) ∈ agrupar_clientes [clienteGrande] 100 := by
    norm_num [agrupar_clientes, agruparAux, List.insertionSort, clienteGrande]
  exact h [] hmem rfl

end Agrupamiento

/-- The depot of the worked example (window 08:00 to 18:00). -/
def depositoDemo : Deposito := ⟨0, 0, 480, 1080⟩

section Evaluacion

/-- The schedule entry that one iteration of `evaluar_ruta`'s loop
appends: arrival at the window start with the corresponding wait when
the raw arrival is early, the raw arrival with no wait otherwise. -/
noncomputable def entradaPaso (s : EvalState) (c : Cliente) : Detalle :=
  if s.tiempo_actual + distancia s.punto_anterior c.pos < (c.ventana_inicio : ℝ) then
    Detalle.cliente c (c.ventana_inicio : ℝ)
      ((c.ventana_inicio : ℝ) - (s.tiempo_actual + distancia s.punto_anterior c.pos))
  else
    Detalle.cliente c (s.tiempo_actual + distancia s.punto_anterior c.pos) 0

/-- `pasoCliente` appends exactly the entry `entradaPaso`. -/
theorem pasoCliente_detalles (s : EvalState) (c : Cliente) :
    (pasoCliente s c).detalles = s.detalles ++ [entradaPaso s c] := by
  simp only [pasoCliente, entradaPaso]
  by_cases hb : s.tiempo_actual + distancia s.punto_anterior c.pos <
      (c.ventana_inicio : ℝ) <;> simp [hb]

/-- Processing customers only appends schedule entries: the schedule of
the starting state is a prefix of the schedule after the loop. -/
theorem foldl_paso_detalles_prefix :
    ∀ (l : List Cliente) (s : EvalState),
      ∃ t, (l.foldl pasoCliente s).detalles = s.detalles ++ t
  | [], s => ⟨[], by simp⟩
  | c :: l, s => by
      obtain ⟨t, ht⟩ := foldl_paso_detalles_prefix l (pasoCliente s c)
      refine ⟨entradaPaso s c :: t, ?_⟩
      rw [List.foldl_cons, ht, pasoCliente_detalles]
      simp

/-- Each loop iteration appends exactly one schedule entry. -/
theorem foldl_paso_detalles_length :
    ∀ (l : List Cliente) (s : EvalState),
      (l.foldl pasoCliente s).detalles.length = s.detalles.length + l.length
  | [], s => by simp
  | c :: l, s => by
      rw [List.foldl_cons, foldl_paso_detalles_length l (pasoCliente s c)]
      simp [pasoCliente]
      omega

/-- The `k`-th schedule entry of the evaluation loop is the entry that
`pasoCliente` appends when fed the state reached after the first `k`
customers. -/
theorem foldl_paso_detalles_getElem (ruta : List Cliente) (dep : Deposito)
    (k : ℕ) (hk : k < ruta.length) :
    ((ruta.foldl pasoCliente (estadoInicial dep)).detalles)[k]? =
      some (entradaPaso ((ruta.take k).foldl pasoCliente (estadoInicial dep))
        (ruta.get ⟨k, hk⟩)) := by
  set c := ruta.get ⟨k, hk⟩ with hc
  set sk := (ruta.take k).foldl pasoCliente (estadoInicial dep) with hsk
  have hsplit : ruta = ruta.take (k + 1) ++ ruta.drop (k + 1) :=
    (List.take_append_drop (k + 1) ruta).symm
  have htake : ruta.take (k + 1) = ruta.take k ++ [c] := by
    rw [List.take_succ]
    have : ruta[k]? = some c := by
      rw [List.getElem?_eq_getElem hk]
      simp [hc, List.get_eq_getElem]
    rw [this]
    rfl
  have hfold : ruta.foldl pasoCliente (estadoInicial dep) =
      (ruta.drop (k + 1)).foldl pasoCliente (pasoCliente sk c) := by
    conv_lhs => rw [hsplit]
    rw [List.foldl_append, htake, List.foldl_append]
    simp [hsk]
  obtain ⟨t, ht⟩ := foldl_paso_detalles_prefix (ruta.drop (k + 1)) (pasoCliente sk c)
  have hlen : sk.detalles.length = k := by
    rw [hsk, foldl_paso_detalles_length]
    simp [estadoInicial]
    omega
  rw [hfold, ht, pasoCliente_detalles, List.append_assoc,
    List.getElem?_append_right (by omega), hlen, Nat.sub_self]
  simp

/-- C4 — Wait semantics: the `k`-th schedule entry recorded by
`evaluar_ruta` has, when the raw arrival (current time plus travel time)
precedes the customer's window start, arrival time exactly the window
start and wait time `window_start - raw_arrival`; otherwise arrival is
the raw arrival and the wait time is `0`. -/
theorem evaluar_ruta_espera (ruta : List Cliente) (dep : Deposito)
    (k : ℕ) (hk : k < ruta.length) :
    ((evaluar_ruta ruta dep).2.2.2)[k]? =
      some (if ((ruta.take k).foldl pasoCliente (estadoInicial dep)).tiempo_actual +
            distancia ((ruta.take k).foldl pasoCliente
              (estadoInicial dep)).punto_anterior (ruta.get ⟨k, hk⟩).pos <
            ((ruta.get ⟨k, hk⟩).ventana_inicio : ℝ) then
          Detalle.cliente (ruta.get ⟨k, hk⟩) ((ruta.get ⟨k, hk⟩).ventana_inicio : ℝ)
            (((ruta.get ⟨k, hk⟩).ventana_inicio : ℝ) -
              (((ruta.take k).foldl pasoCliente (estadoInicial dep)).tiempo_actual +
                distancia ((ruta.take k).foldl pasoCliente
                  (estadoInicial dep)).punto_anterior (ruta.get ⟨k, hk⟩).pos))
        else
          Detalle.cliente (ruta.get ⟨k, hk⟩)
            (((ruta.take k).foldl pasoCliente (estadoInicial dep)).tiempo_actual +
              distancia ((ruta.take k).foldl pasoCliente
                (estadoInicial dep)).punto_anterior (ruta.get ⟨k, hk⟩).pos)
            0) := by
  set c := ruta.get ⟨k, hk⟩ with hc
  set sk := (ruta.take k).foldl pasoCliente (estadoInicial dep) with hsk
  have hlenF : (ruta.foldl pasoCliente (estadoInicial dep)).detalles.length =
      ruta.length := by
    rw [foldl_paso_detalles_length]
    simp [estadoInicial]
  have h1 : ((evaluar_ruta ruta dep).2.2.2)[k]? =
      ((ruta.foldl pasoCliente (estadoInicial dep)).detalles)[k]? := by
    show ((ruta.foldl pasoCliente (estadoInicial dep)).detalles ++ _)[k]? = _
    rw [List.getElem?_append_left (by omega)]
  rw [h1, foldl_paso_detalles_getElem ruta dep k hk]
  simp only [entradaPaso, hsk, hc]

/-- Witness for C4 at a concrete one-customer route. -/
theorem evaluar_ruta_espera_witness :
    0 < [clienteA].length ∧
      ((evaluar_ruta [clienteA] depositoDemo).2.2.2)[0]? =
        some (if (([clienteA].take 0).foldl pasoCliente
              (estadoInicial depositoDemo)).tiempo_actual +
              distancia (([clienteA].take 0).foldl pasoCliente
                (estadoInicial depositoDemo)).punto_anterior
                ([clienteA].get ⟨0, by decide⟩).pos <
              (([clienteA].get ⟨0, by decide⟩).ventana_inicio : ℝ) then
            Detalle.cliente ([clienteA].get ⟨0, by decide⟩)
              (([clienteA].get ⟨0, by decide⟩).ventana_inicio : ℝ)
              ((([clienteA].get ⟨0, by decide⟩).ventana_inicio : ℝ) -
                ((([clienteA].take 0).foldl pasoCliente
                  (estadoInicial depositoDemo)).tiempo_actual +
                  distancia (([clienteA].take 0).foldl pasoCliente
                    (estadoInicial depositoDemo)).punto_anterior
                    ([clienteA].get ⟨0, by decide⟩).pos))
          else
            Detalle.cliente ([clienteA].get ⟨0, by decide⟩)
              ((([clienteA].take 0).foldl pasoCliente
                (estadoInicial depositoDemo)).tiempo_actual +
                distancia (([clienteA].take 0).foldl pasoCliente
                  (estadoInicial depositoDemo)).punto_anterior
                  ([clienteA].get ⟨0, by decide⟩).pos)
              0) :=
  ⟨by decide, evaluar_ruta_espera [clienteA] depositoDemo 0 (by decide)⟩

/-- C3 — Penalty semantics: along `evaluar_ruta`'s loop (whose total
penalty is the `penalizacion` of the final fold state), the penalty the
`k`-th step adds is `(raw_arrival - window_end) * 1000` when the raw
arrival exceeds the window end and `0` otherwise, and it is nonzero
exactly when the raw arrival exceeds the window end — provided the
customer's window is well-formed (`window_start ≤ window_end`). -/
theorem evaluar_ruta_penalizacion (ruta : List Cliente) (dep : Deposito)
    (k : ℕ) (hk : k < ruta.length)
    (hwin : (ruta.get ⟨k, hk⟩).ventana_inicio ≤ (ruta.get ⟨k, hk⟩).ventana_fin) :
    (evaluar_ruta ruta dep).2.2.1 =
        (ruta.foldl pasoCliente (estadoInicial dep)).penalizacion ∧
      ((pasoCliente ((ruta.take k).foldl pasoCliente (estadoInicial dep))
            (ruta.get ⟨k, hk⟩)).penalizacion -
          ((ruta.take k).foldl pasoCliente (estadoInicial dep)).penalizacion =
        if ((ruta.get ⟨k, hk⟩).ventana_fin : ℝ) <
            ((ruta.take k).foldl pasoCliente (estadoInicial dep)).tiempo_actual +
              distancia ((ruta.take k).foldl pasoCliente
                (estadoInicial dep)).punto_anterior (ruta.get ⟨k, hk⟩).pos then
          ((((ruta.take k).foldl pasoCliente (estadoInicial dep)).tiempo_actual +
              distancia ((ruta.take k).foldl pasoCliente
                (estadoInicial dep)).punto_anterior (ruta.get ⟨k, hk⟩).pos) -
            ((ruta.get ⟨k, hk⟩).ventana_fin : ℝ)) * 1000
        else 0) ∧
      ((pasoCliente ((ruta.take k).foldl pasoCliente (estadoInicial dep))
            (ruta.get ⟨k, hk⟩)).penalizacion -
          ((ruta.take k).foldl pasoCliente (estadoInicial dep)).penalizacion ≠ 0 ↔
        ((ruta.get ⟨k, hk⟩).ventana_fin : ℝ) <
          ((ruta.take k).foldl pasoCliente (estadoInicial dep)).tiempo_actual +
            distancia ((ruta.take k).foldl pasoCliente
              (estadoInicial dep)).punto_anterior (ruta.get ⟨k, hk⟩).pos) := by
  set c := ruta.get ⟨k, hk⟩ with hc
  set sk := (ruta.take k).foldl pasoCliente (estadoInicial dep) with hsk
  have hwinR : (c.ventana_inicio : ℝ) ≤ (c.ventana_fin : ℝ) := by
    exact_mod_cast hwin
  have hdelta : (pasoCliente sk c).penalizacion - sk.penalizacion =
      if (c.ventana_fin : ℝ) <
          sk.tiempo_actual + distancia sk.punto_anterior c.pos then
        ((sk.tiempo_actual + distancia sk.punto_anterior c.pos) -
          (c.ventana_fin : ℝ)) * 1000
      else 0 := by
    by_cases hb : sk.tiempo_actual + distancia sk.punto_anterior c.pos <
        (c.ventana_inicio : ℝ)
    · have hnl : ¬ ((c.ventana_fin : ℝ) < (c.ventana_inicio : ℝ)) := not_lt.mpr hwinR
      have hnl2 : ¬ ((c.ventana_fin : ℝ) <
          sk.tiempo_actual + distancia sk.punto_anterior c.pos) :=
        not_lt.mpr (le_of_lt (lt_of_lt_of_le hb hwinR))
      simp only [pasoCliente]
      rw [if_pos hb, if_neg hnl, if_neg hnl2]
      ring
    · simp only [pasoCliente]
      rw [if_neg hb]
      by_cases hl : (c.ventana_fin : ℝ) < sk.tiempo_actual +
          distancia sk.punto_anterior c.pos
      · rw [if_pos hl]
        ring
      · rw [if_neg hl]
        ring
  refine ⟨rfl, hdelta, ?_⟩
  rw [hdelta]
  by_cases hl : (c.ventana_fin : ℝ) <
      sk.tiempo_actual + distancia sk.punto_anterior c.pos
  · rw [if_pos hl]
    constructor
    · intro _
      exact hl
    · intro _
      have hpos : 0 < ((sk.tiempo_actual + distancia sk.punto_anterior c.pos) -
          (c.ventana_fin : ℝ)) * 1000 := by
        have h1 : 0 < (sk.tiempo_actual + distancia sk.punto_anterior c.pos) -
            (c.ventana_fin : ℝ) := sub_pos.mpr hl
        positivity
      exact ne_of_gt hpos
  · rw [if_neg hl]
    simp [hl]

/-- Witness for C3 at a concrete one-customer route with a well-formed
window. -/
theorem evaluar_ruta_penalizacion_witness :
    (([clienteA].get ⟨0, by decide⟩).ventana_inicio ≤
        ([clienteA].get ⟨0, by decide⟩).ventana_fin) ∧
      ((evaluar_ruta [clienteA] depositoDemo).2.2.1 =
          ([clienteA].foldl pasoCliente (estadoInicial depositoDemo)).penalizacion ∧
        ((pasoCliente (([clienteA].take 0).foldl pasoCliente
              (estadoInicial depositoDemo)) ([clienteA].get ⟨0, by decide⟩)).penalizacion -
            (([clienteA].take 0).foldl pasoCliente
              (estadoInicial depositoDemo)).penalizacion =
          if (([clienteA].get ⟨0, by decide⟩).ventana_fin : ℝ) <
              (([clienteA].take 0).foldl pasoCliente
                (estadoInicial depositoDemo)).tiempo_actual +
                distancia (([clienteA].take 0).foldl pasoCliente
                  (estadoInicial depositoDemo)).punto_anterior
                  ([clienteA].get ⟨0, by decide⟩).pos then
            (((([clienteA].take 0).foldl pasoCliente
                (estadoInicial depositoDemo)).tiempo_actual +
                distancia (([clienteA].take 0).foldl pasoCliente
                  (estadoInicial depositoDemo)).punto_anterior
                  ([clienteA].get ⟨0, by decide⟩).pos) -
              (([clienteA].get ⟨0, by decide⟩).ventana_fin : ℝ)) * 1000
          else 0) ∧
        ((pasoCliente (([clienteA].take 0).foldl pasoCliente
              (estadoInicial depositoDemo)) ([clienteA].get ⟨0, by decide⟩)).penalizacion -
            (([clienteA].take 0).foldl pasoCliente
              (estadoInicial depositoDemo)).penalizacion ≠ 0 ↔
          (([clienteA].get ⟨0, by decide⟩).ventana_fin : ℝ) <
            (([clienteA].take 0).foldl pasoCliente
              (estadoInicial depositoDemo)).tiempo_actual +
              distancia (([clienteA].take 0).foldl pasoCliente
                (estadoInicial depositoDemo)).punto_anterior
                ([clienteA].get ⟨0, by decide⟩).pos)) :=
  ⟨by decide, evaluar_ruta_penalizacion [clienteA] depositoDemo 0 (by decide)
    (by decide)⟩

/-- C9 — Evaluator determinism and purity: `evaluar_ruta` is modelled as
a total pure function, so calling it on equal routes and depots yields
identical fitness, total distance, total penalty and schedule, and every
permutation of customers produces a result. -/
theorem evaluar_ruta_determinista :
    (∀ (r₁ r₂ : List Cliente) (d₁ d₂ : Deposito), r₁ = r₂ → d₁ = d₂ →
      (evaluar_ruta r₁ d₁).1 = (evaluar_ruta r₂ d₂).1 ∧
        (evaluar_ruta r₁ d₁).2.1 = (evaluar_ruta r₂ d₂).2.1 ∧
        (evaluar_ruta r₁ d₁).2.2.1 = (evaluar_ruta r₂ d₂).2.2.1 ∧
        (evaluar_ruta r₁ d₁).2.2.2 = (evaluar_ruta r₂ d₂).2.2.2) ∧
    (∀ (ruta : List Cliente) (dep : Deposito),
      ∃ fitness distancia_total penalizacion detalles,
        evaluar_ruta ruta dep =
          (fitness, distancia_total, penalizacion, detalles)) := by
  constructor
  · intro r₁ r₂ d₁ d₂ hr hd
    subst hr
    subst hd
    exact ⟨rfl, rfl, rfl, rfl⟩
  · intro ruta dep
    exact ⟨_, _, _, _, rfl⟩

/-- Witness for C9 at a concrete route and depot. -/
theorem evaluar_ruta_determinista_witness :
    (evaluar_ruta [clienteA] depositoDemo).1 =
      (evaluar_ruta [clienteA] depositoDemo).1 ∧
      (evaluar_ruta [clienteA] depositoDemo).2.1 =
        (evaluar_ruta [clienteA] depositoDemo).2.1 ∧
      (evaluar_ruta [clienteA] depositoDemo).2.2.1 =
        (evaluar_ruta [clienteA] depositoDemo).2.2.1 ∧
      (evaluar_ruta [clienteA] depositoDemo).2.2.2 =
        (evaluar_ruta [clienteA] depositoDemo).2.2.2 :=
  evaluar_ruta_determinista.1 [clienteA] [clienteA] depositoDemo depositoDemo
    rfl rfl

end Evaluacion

section Operadores

/-- Stepping at least once but fewer than `n` slots around a cycle of
length `n` never returns to the start. -/
theorem mod_desplazado_ne (pos u n : ℕ) (hp : pos < n) (h1 : 1 ≤ u)
    (hu : u < n) : (pos + u) % n ≠ pos := by
  by_cases hc : pos + u < n
  · rw [Nat.mod_eq_of_lt hc]
    omega
  · have h2n : pos + u < 2 * n := by omega
    have : (pos + u) % n = pos + u - n := by
      rw [Nat.mod_eq_sub_mod (by omega), Nat.mod_eq_of_lt (by omega)]
    rw [this]
    omega

/-- The positions outside the copied segment `[inicio, fin]` are exactly
the cyclic interval of length `inicio + (n - fin - 1)` starting right
after `fin`. -/
theorem rango_ciclico (inicio fin n j : ℕ) (h1 : inicio ≤ fin) (h2 : fin < n)
    (hj : j < n) :
    (j < inicio ∨ fin < j) ↔
      ∃ t, t < inicio + (n - fin - 1) ∧ j = (fin + 1 + t) % n := by
  constructor
  · rintro (hcase | hcase)
    · refine ⟨j + (n - fin - 1), by omega, ?_⟩
      rw [show fin + 1 + (j + (n - fin - 1)) = j + n by omega, Nat.add_mod_right,
        Nat.mod_eq_of_lt hj]
    · refine ⟨j - fin - 1, by omega, ?_⟩
      rw [show fin + 1 + (j - fin - 1) = j by omega, Nat.mod_eq_of_lt hj]
  · rintro ⟨t, ht, hjt⟩
    by_cases hc : fin + 1 + t < n
    · rw [Nat.mod_eq_of_lt hc] at hjt
      omega
    · have hsub : (fin + 1 + t) % n = fin + 1 + t - n := by
        rw [Nat.mod_eq_sub_mod (by omega), Nat.mod_eq_of_lt (by omega)]
      rw [hsub] at hjt
      omega

/-- A list of options with no `none` entry is the `some`-image of its
list of filled values. -/
theorem todos_some :
    ∀ (l : List (Option Cliente)), (∀ x ∈ l, x ≠ none) →
      l = (l.filterMap id).map some
  | [], _ => rfl
  | x :: l, h => by
      match x, h x (List.mem_cons_self x l) with
      | some a, _ =>
          rw [List.filterMap_cons]
          simpa using todos_some l (fun y hy => h y (List.mem_cons_of_mem _ hy))

/-- Empty slots contribute nothing to the filled values. -/
theorem filterMap_replicate_none :
    ∀ k : ℕ, (List.replicate k (none : Option Cliente)).filterMap id = []
  | 0 => rfl
  | k + 1 => by
      rw [List.replicate_succ, List.filterMap_cons]
      exact filterMap_replicate_none k

/-- Moving the head of a list into the slot it was swapped with is a
permutation. -/
theorem intercambia_cabeza :
    ∀ (t : List Cliente) (j : ℕ) (a b : Cliente), t[j]? = some b →
      (b :: t.set j a).Perm (a :: t)
  | [], j, a, b, h => by simp at h
  | x :: t, 0, a, b, h => by
      simp only [List.getElem?_cons_zero, Option.some.injEq] at h
      subst h
      simpa using List.Perm.swap a x t
  | x :: t, j + 1, a, b, h => by
      simp only [List.getElem?_cons_succ] at h
      have ih := intercambia_cabeza t j a b h
      have h1 : b :: (x :: t).set (j + 1) a = b :: x :: t.set j a := by simp
      rw [h1]
      exact (List.Perm.swap x b _).trans ((ih.cons x).trans (List.Perm.swap a x t))

/-- Writing each of two stored values at the other's index is a
permutation (the content of Python's `l[i], l[j] = l[j], l[i]`). -/
theorem set_set_perm :
    ∀ (l : List Cliente) (i j : ℕ) (a b : Cliente),
      l[i]? = some a → l[j]? = some b → (((l.set i b).set j a)).Perm l
  | [], i, j, a, b, hi, hj => by simp at hi
  | x :: t, 0, 0, a, b, hi, hj => by
      simp only [List.getElem?_cons_zero, Option.some.injEq] at hi hj
      subst hi
      subst hj
      simp
  | x :: t, 0, j + 1, a, b, hi, hj => by
      simp only [List.getElem?_cons_zero, Option.some.injEq,
        List.getElem?_cons_succ] at hi hj
      subst hi
      simpa using intercambia_cabeza t j x b hj
  | x :: t, i + 1, 0, a, b, hi, hj => by
      simp only [List.getElem?_cons_zero, Option.some.injEq,
        List.getElem?_cons_succ] at hi hj
      subst hj
      simpa using intercambia_cabeza t i x a hi
  | x :: t, i + 1, j + 1, a, b, hi, hj => by
      simp only [List.getElem?_cons_succ] at hi hj
      simpa using (set_set_perm t i j a b hi hj).cons x

/-- `pySwap` permutes the list. -/
theorem pySwap_perm (l : List Cliente) (i j : ℕ) : (pySwap l i j).Perm l := by
  unfold pySwap
  rcases hi : l[i]? with _ | a
  · simp
  · rcases hj : l[j]? with _ | b
    · simp
    · exact set_set_perm l i j a b hi hj

/-- The mutation loop only ever swaps entries, so its output permutes
its input. -/
theorem mutLoop_perm {σ : Type} (o : Oracle σ) (tasa : ℚ) (n : ℕ) :
    ∀ (idxs : List ℕ) (individuo : List Cliente) (s : σ),
      ((mutLoop o tasa n idxs individuo s).1).Perm individuo
  | [], individuo, s => List.Perm.refl individuo
  | i :: resto, individuo, s => by
      rw [mutLoop]
      by_cases hr : (o.randFloat s).1 < tasa
      · rw [if_pos hr]
        exact (mutLoop_perm o tasa n resto _ _).trans (pySwap_perm individuo i _)
      · rw [if_neg hr]
        exact mutLoop_perm o tasa n resto individuo _

/-- Invariant proof for `cruce_ordenado`'s fill loop: if the empty slots
of `hijo` form the cyclic interval of length `m` starting at `pos` and
exactly `m` of the remaining genes are missing from `hijo`, the loop
fills every slot and the filled values end up a permutation of the
already-placed values plus the missing genes. -/
theorem fillLoop_completa (n : ℕ) :
    ∀ (resto : List Cliente) (hijo : List (Option Cliente)) (pos m : ℕ),
      hijo.length = n → pos < n → m ≤ n → resto.Nodup →
      (∀ j, j < n → (hijo[j]? = some none ↔ ∃ t, t < m ∧ j = (pos + t) % n)) →
      (resto.filter (fun g => decide (some g ∉ hijo))).length = m →
      (fillLoop n resto hijo pos).length = n ∧
        (∀ x ∈ fillLoop n resto hijo pos, x ≠ none) ∧
        ((fillLoop n resto hijo pos).filterMap id).Perm
          ((hijo.filterMap id) ++ resto.filter (fun g => decide (some g ∉ hijo)))
  | [], hijo, pos, m, hlen, hp, hm, hnd, hchar, hfil => by
      have hm0 : m = 0 := by simpa using hfil.symm
      subst hm0
      rw [fillLoop]
      refine ⟨hlen, ?_, by simp⟩
      intro x hx hxn
      subst hxn
      obtain ⟨j, hj⟩ := List.mem_iff_getElem?.mp hx
      have hjlt : j < n := by
        rcases List.getElem?_eq_some_iff.mp hj with ⟨hlt, _⟩
        omega
      rcases (hchar j hjlt).mp hj with ⟨t, ht, _⟩
      omega
  | gen :: resto, hijo, pos, m, hlen, hp, hm, hnd, hchar, hfil => by
      rw [fillLoop]
      by_cases hmem : some gen ∈ hijo
      · rw [if_pos hmem]
        have hfc : List.filter (fun g => decide (some g ∉ hijo)) (gen :: resto) =
            List.filter (fun g => decide (some g ∉ hijo)) resto :=
          List.filter_cons_of_neg (by simpa using hmem)
        rw [hfc] at hfil
        have ih := fillLoop_completa n resto hijo pos m hlen hp hm
          (List.nodup_cons.mp hnd).2 hchar hfil
        refine ⟨ih.1, ih.2.1, ?_⟩
        rw [hfc]
        exact ih.2.2
      · rw [if_neg hmem]
        have hn0 : 0 < n := by omega
        have hposlen : pos < hijo.length := by omega
        have hfilcons : (List.filter (fun g => decide (some g ∉ hijo)) resto).length
            + 1 = m := by
          rw [List.filter_cons_of_pos (by simpa using hmem)] at hfil
          simpa using hfil
        have hm1 : 1 ≤ m := by omega
        have hpos_none : hijo[pos]? = some none :=
          (hchar pos hp).mpr ⟨0, by omega, by rw [Nat.add_zero, Nat.mod_eq_of_lt hp]⟩
        obtain ⟨hposlt, hgetelem⟩ := List.getElem?_eq_some_iff.mp hpos_none
        have hdecomp : hijo = hijo.take pos ++ none :: hijo.drop (pos + 1) := by
          conv_lhs => rw [← List.take_append_drop pos hijo]
          congr 1
          rw [← List.getElem_cons_drop hijo pos hposlen, hgetelem]
        have htklen : (hijo.take pos).length = pos := by
          rw [List.length_take]
          omega
        have hset : hijo.set pos (some gen) =
            hijo.take pos ++ some gen :: hijo.drop (pos + 1) := by
          conv_lhs => rw [hdecomp]
          rw [List.set_append, if_neg (by omega), htklen, Nat.sub_self]
          rfl
        have hlen2 : (hijo.set pos (some gen)).length = n := by simp [hlen]
        have hp2 : (pos + 1) % n < n := Nat.mod_lt _ hn0
        have hchar2 : ∀ j, j < n →
            ((hijo.set pos (some gen))[j]? = some none ↔
              ∃ t, t < m - 1 ∧ j = ((pos + 1) % n + t) % n) := by
          intro j hjn
          rw [List.getElem?_set]
          by_cases hpj : pos = j
          · subst hpj
            rw [if_pos rfl, if_pos hposlen]
            constructor
            · intro hcontra
              simp at hcontra
            · rintro ⟨t, ht, hteq⟩
              exfalso
              rw [Nat.mod_add_mod, show pos + 1 + t = pos + (1 + t) by omega] at hteq
              exact mod_desplazado_ne pos (1 + t) n hp (by omega) (by omega) hteq.symm
          · rw [if_neg hpj, hchar j hjn]
            constructor
            · rintro ⟨t, ht, hteq⟩
              have ht0 : t ≠ 0 := by
                intro h0
                subst h0
                rw [Nat.add_zero, Nat.mod_eq_of_lt hp] at hteq
                exact hpj hteq.symm
              refine ⟨t - 1, by omega, ?_⟩
              rw [Nat.mod_add_mod, show pos + 1 + (t - 1) = pos + t by omega]
              exact hteq
            · rintro ⟨t, ht, hteq⟩
              rw [Nat.mod_add_mod] at hteq
              exact ⟨1 + t, by omega,
                by rw [show pos + (1 + t) = pos + 1 + t by omega]; exact hteq⟩
        have hgen_not : gen ∉ resto := (List.nodup_cons.mp hnd).1
        have hmem2 : ∀ g : Cliente, g ≠ gen →
            (some g ∈ hijo.set pos (some gen) ↔ some g ∈ hijo) := by
          intro g hg
          constructor
          · intro hgm
            obtain ⟨j, hj⟩ := List.mem_iff_getElem?.mp hgm
            rw [List.getElem?_set] at hj
            by_cases hpj : pos = j
            · rw [if_pos hpj, if_pos hposlen] at hj
              have hgg : gen = g := by simpa using hj
              exact absurd hgg.symm hg
            · rw [if_neg hpj] at hj
              exact List.mem_iff_getElem?.mpr ⟨j, hj⟩
          · intro hgm
            obtain ⟨j, hj⟩ := List.mem_iff_getElem?.mp hgm
            have hpj : pos ≠ j := by
              intro he
              rw [← he, hpos_none] at hj
              simp at hj
            refine List.mem_iff_getElem?.mpr ⟨j, ?_⟩
            rw [List.getElem?_set, if_neg hpj]
            exact hj
        have hfc2 : resto.filter (fun g => decide (some g ∉ hijo.set pos (some gen))) =
            resto.filter (fun g => decide (some g ∉ hijo)) := by
          refine List.filter_congr ?_
          intro g hg
          rw [decide_eq_decide]
          have hgne : g ≠ gen := fun h => hgen_not (h ▸ hg)
          rw [hmem2 g hgne]
        have hfil2 : (resto.filter
            (fun g => decide (some g ∉ hijo.set pos (some gen)))).length = m - 1 := by
          rw [hfc2]
          omega
        have ih := fillLoop_completa n resto (hijo.set pos (some gen))
          ((pos + 1) % n) (m - 1) hlen2 hp2 (by omega)
          (List.nodup_cons.mp hnd).2 hchar2 hfil2
        refine ⟨ih.1, ih.2.1, ?_⟩
        have hfm_set : (hijo.set pos (some gen)).filterMap id =
            (hijo.take pos).filterMap id ++
              gen :: (hijo.drop (pos + 1)).filterMap id := by
          rw [hset, List.filterMap_append]
          simp
        have hfm_hijo : hijo.filterMap id =
            (hijo.take pos).filterMap id ++ (hijo.drop (pos + 1)).filterMap id := by
          conv_lhs => rw [hdecomp]
          rw [List.filterMap_append]
          simp
        have hstep : ((hijo.set pos (some gen)).filterMap id ++
            resto.filter (fun g => decide (some g ∉ hijo))).Perm
            (hijo.filterMap id ++
              (gen :: resto.filter (fun g => decide (some g ∉ hijo)))) := by
          rw [hfm_set, hfm_hijo]
          have h1 := (@List.perm_middle _ gen ((hijo.take pos).filterMap id)
            ((hijo.drop (pos + 1)).filterMap id)).append_right
            (resto.filter (fun g => decide (some g ∉ hijo)))
          exact h1.trans List.perm_middle.symm
        rw [List.filter_cons_of_pos (by simpa using hmem)]
        have ih3 := ih.2.2
        rw [hfc2] at ih3
        exact ih3.trans hstep

/-- Order crossover on duplicate-free parents that permute each other
yields a fully-filled child permuting the parents, for any sorted pair of
cut indices inside the route. -/
theorem cruce_ordenado_permutacion (padre1 padre2 : List Cliente)
    (inicio fin : ℕ) (hnd : padre1.Nodup) (hperm : padre1.Perm padre2)
    (h1 : inicio ≤ fin) (h2 : fin < padre1.length) :
    ∃ hijo : List Cliente,
      cruce_ordenado padre1 padre2 inicio fin = hijo.map some ∧
        hijo.Perm padre1 := by
  have hn0 : 0 < padre1.length := by omega
  set A := List.replicate inicio (none : Option Cliente) with hA
  set B := ((padre1.take (fin + 1)).drop inicio).map some with hB
  set C := List.replicate (padre1.length - (fin + 1)) (none : Option Cliente) with hC
  have htke : (List.replicate padre1.length (none : Option Cliente)).take inicio
      = A := by
    rw [List.take_replicate, hA]
    congr 1
    omega
  have hdrp : (List.replicate padre1.length (none : Option Cliente)).drop (fin + 1)
      = C := List.drop_replicate none (fin + 1) padre1.length
  have hcd : cruce_ordenado padre1 padre2 inicio fin =
      fillLoop padre1.length padre2 (A ++ B ++ C)
        ((fin + 1) % padre1.length) := by
    show fillLoop _ _ _ _ = _
    rw [htke, hdrp, hB]
  have hseglen : ((padre1.take (fin + 1)).drop inicio).length = fin + 1 - inicio := by
    rw [List.length_drop, List.length_take]
    omega
  have hlenA : A.length = inicio := List.length_replicate inicio none
  have hlenB : B.length = fin + 1 - inicio := by
    rw [hB, List.length_map]
    exact hseglen
  have hlenC : C.length = padre1.length - (fin + 1) :=
    List.length_replicate _ none
  have hlen0 : (A ++ B ++ C).length = padre1.length := by
    rw [List.length_append, List.length_append, hlenA, hlenB, hlenC]
    omega
  have hchar0 : ∀ j, j < padre1.length →
      ((A ++ B ++ C)[j]? = some none ↔ (j < inicio ∨ fin < j)) := by
    intro j hj
    by_cases hj1 : j < inicio
    · rw [List.getElem?_append_left
        (show j < (A ++ B).length by rw [List.length_append, hlenA, hlenB]; omega),
        List.getElem?_append_left (show j < A.length by omega), hA,
        List.getElem?_replicate, if_pos hj1]
      simp [hj1]
    · by_cases hj2 : fin < j
      · rw [List.getElem?_append_right
          (show (A ++ B).length ≤ j by rw [List.length_append, hlenA, hlenB]; omega),
          hC, List.getElem?_replicate,
          if_pos (by rw [List.length_append, hlenA, hlenB]; omega)]
        simp [hj2]
      · rw [List.getElem?_append_left
          (show j < (A ++ B).length by rw [List.length_append, hlenA, hlenB]; omega),
          List.getElem?_append_right (show A.length ≤ j by omega), hB,
          List.getElem?_map]
        have hjseg : j - A.length < ((padre1.take (fin + 1)).drop inicio).length := by
          rw [hseglen, hlenA]
          omega
        rw [List.getElem?_eq_getElem hjseg]
        constructor
        · intro hcontra
          simp at hcontra
        · intro hcontra
          omega
  have hchar : ∀ j, j < padre1.length →
      ((A ++ B ++ C)[j]? = some none ↔
        ∃ t, t < inicio + (padre1.length - fin - 1) ∧
          j = ((fin + 1) % padre1.length + t) % padre1.length) := by
    intro j hj
    rw [hchar0 j hj, rango_ciclico inicio fin padre1.length j h1 h2 hj]
    constructor
    · rintro ⟨t, ht, hjt⟩
      exact ⟨t, ht, by rw [Nat.mod_add_mod]; exact hjt⟩
    · rintro ⟨t, ht, hjt⟩
      rw [Nat.mod_add_mod] at hjt
      exact ⟨t, ht, hjt⟩
  have hp2nd : padre2.Nodup := hperm.nodup_iff.mp hnd
  have hsub : ((padre1.take (fin + 1)).drop inicio).Sublist padre1 :=
    (List.drop_sublist _ _).trans (List.take_sublist _ _)
  have hsegnd : ((padre1.take (fin + 1)).drop inicio).Nodup :=
    List.Nodup.sublist hsub hnd
  have hmemH : ∀ g : Cliente,
      (some g ∈ A ++ B ++ C ↔ g ∈ (padre1.take (fin + 1)).drop inicio) := by
    intro g
    rw [hA, hB, hC]
    simp only [List.mem_append, List.mem_replicate, List.mem_map,
      Option.some.injEq]
    simp
  have hfeq : padre2.filter (fun g => decide (some g ∉ A ++ B ++ C)) =
      padre2.filter (fun g => !decide (g ∈ (padre1.take (fin + 1)).drop inicio)) := by
    refine List.filter_congr ?_
    intro g _
    rw [← decide_not, decide_eq_decide]
    rw [hmemH g]
  have hfin_perm : (padre2.filter
      (fun g => decide (g ∈ (padre1.take (fin + 1)).drop inicio))).Perm
      ((padre1.take (fin + 1)).drop inicio) := by
    refine List.perm_of_nodup_nodup_toFinset_eq (List.Nodup.filter _ hp2nd) hsegnd ?_
    refine Finset.ext ?_
    intro a
    simp only [List.mem_toFinset, List.mem_filter, decide_eq_true_eq]
    constructor
    · rintro ⟨_, h⟩
      exact h
    · intro h
      exact ⟨hperm.mem_iff.mp (hsub.subset h), h⟩
  have hlenp2 : padre2.length = padre1.length := hperm.length_eq.symm
  have hsum := (List.filter_append_perm
    (fun g => decide (g ∈ (padre1.take (fin + 1)).drop inicio)) padre2).length_eq
  rw [List.length_append] at hsum
  have hlen_in : (padre2.filter
      (fun g => decide (g ∈ (padre1.take (fin + 1)).drop inicio))).length =
      fin + 1 - inicio := hfin_perm.length_eq.trans hseglen
  have hfil0 : (padre2.filter (fun g => decide (some g ∉ A ++ B ++ C))).length =
      inicio + (padre1.length - fin - 1) := by
    rw [hfeq]
    omega
  obtain ⟨hL, hN, hP⟩ := fillLoop_completa padre1.length padre2 (A ++ B ++ C)
    ((fin + 1) % padre1.length) (inicio + (padre1.length - fin - 1))
    hlen0 (Nat.mod_lt _ hn0) (by omega) hp2nd hchar hfil0
  refine ⟨(fillLoop padre1.length padre2 (A ++ B ++ C)
    ((fin + 1) % padre1.length)).filterMap id, ?_, ?_⟩
  · rw [hcd]
    exact todos_some _ hN
  · have hfmH : (A ++ B ++ C).filterMap id = (padre1.take (fin + 1)).drop inicio := by
      rw [hA, hB, hC, List.filterMap_append, List.filterMap_append,
        filterMap_replicate_none, filterMap_replicate_none, List.filterMap_map]
      simp [Function.comp_def, List.filterMap_some]
    have hre : (((padre1.take (fin + 1)).drop inicio) ++
        padre2.filter (fun g =>
          !decide (g ∈ (padre1.take (fin + 1)).drop inicio))).Perm padre2 :=
      (hfin_perm.symm.append_right _).trans (List.filter_append_perm _ padre2)
    rw [hfmH, hfeq] at hP
    exact (hP.trans hre).trans hperm.symm

/-- C5 — Permutation closure: for duplicate-free parents that are
permutations of each other, order crossover (with any in-range sorted cut
pair, as `sorted(random.sample(range(tamano), 2))` produces) yields a
fully-filled child that is a permutation of the gene set, and swap
mutation always returns a permutation of its input. -/
theorem operadores_permutacion :
    (∀ (padre1 padre2 : List Cliente) (inicio fin : ℕ),
        padre1.Nodup → padre1.Perm padre2 → inicio ≤ fin →
        fin < padre1.length →
        ∃ hijo : List Cliente,
          cruce_ordenado padre1 padre2 inicio fin = hijo.map some ∧
            hijo.Perm padre1) ∧
    (∀ (σ : Type) (o : Oracle σ) (individuo : List Cliente) (tasa : ℚ) (s : σ),
        ((mutacion_intercambio o individuo tasa s).1).Perm individuo) :=
  ⟨fun p1 p2 inicio fin hnd hperm hi hf =>
      cruce_ordenado_permutacion p1 p2 inicio fin hnd hperm hi hf,
    fun _ o individuo tasa s =>
      mutLoop_perm o tasa individuo.length (List.range individuo.length)
        individuo s⟩

/-- Witness for C5 at concrete two-customer parents with cut pair
`(0, 1)` and a concrete mutation call. -/
theorem operadores_permutacion_witness :
    ([clienteA, clienteB].Nodup ∧ (0 : ℕ) ≤ 1 ∧
        1 < [clienteA, clienteB].length) ∧
      (∃ hijo : List Cliente,
          cruce_ordenado [clienteA, clienteB] [clienteB, clienteA] 0 1 =
            hijo.map some ∧ hijo.Perm [clienteA, clienteB]) ∧
      ((mutacion_intercambio trivOracle [clienteA, clienteB] 0 ()).1).Perm
        [clienteA, clienteB] :=
  ⟨⟨by decide, by decide, by decide⟩,
    operadores_permutacion.1 [clienteA, clienteB] [clienteB, clienteA] 0 1
      (by decide) (List.Perm.swap clienteB clienteA []) (by decide) (by decide),
    operadores_permutacion.2 Unit trivOracle [clienteA, clienteB] 0 ()⟩

end Operadores

section Genetico

/-- A left fold of binary `min` stays among the starting value and the
folded elements. -/
theorem foldl_min_mem : ∀ (xs : List ℝ) (x : ℝ), xs.foldl min x ∈ x :: xs
  | [], x => by simp
  | y :: xs, x => by
      rw [List.foldl_cons]
      have ih := foldl_min_mem xs (min x y)
      rcases List.mem_cons.mp ih with h | h
      · rw [h]
        rcases min_choice x y with hm | hm <;> rw [hm] <;> simp
      · exact List.mem_cons_of_mem x (List.mem_cons_of_mem y h)

/-- Python's `min` returns an element of the list. -/
theorem pyMin_mem (l : List ℝ) (m : ℝ) (h : pyMin l = some m) : m ∈ l := by
  cases l with
  | nil => simp [pyMin] at h
  | cons x xs =>
      simp only [pyMin, Option.some.injEq] at h
      rw [← h]
      exact foldl_min_mem xs x

/-- `fitnesses[fitnesses.index(m)]` recovers `m` itself. -/
theorem getD_indexOf_self (l : List ℝ) (m : ℝ) (hm : m ∈ l) :
    l.getD (l.indexOf m) 0 = m := by
  have hlt : l.indexOf m < l.length := List.indexOf_lt_length.mpr hm
  rw [List.getD_eq_getElem l 0 hlt, List.getElem_indexOf hlt]

/-- One generation never worsens the best-so-far fitness. -/
theorem genStep_mejor_le {σ : Type} (o : Oracle σ) (dep : Deposito)
    (tam : ℕ) (tc tm : ℚ) (st st2 : GAState σ)
    (h : genStep o dep tam tc tm st = some st2) :
    st2.mejor_fitness ≤ st.mejor_fitness := by
  simp only [genStep] at h
  split at h
  · exact absurd h (by simp)
  · rename_i m hm
    split at h
    · exact absurd h (by simp)
    · injection h with h2
      subst h2
      by_cases hcond : ((st.poblacion.map
          (fun ind => (evaluar_ruta ind dep).1)).getD
            ((st.poblacion.map (fun ind => (evaluar_ruta ind dep).1)).indexOf m) 0 :
          WithTop ℝ) < st.mejor_fitness
      · simp only [if_pos hcond]
        exact le_of_lt hcond
      · simp only [if_neg hcond]
        exact le_refl _

/-- Iterating generations never worsens the best-so-far fitness. -/
theorem iterar_mejor_le {σ : Type} (o : Oracle σ) (dep : Deposito)
    (tam : ℕ) (tc tm : ℚ) :
    ∀ (g : ℕ) (st st2 : GAState σ),
      iterarGeneraciones o dep tam tc tm g st = some st2 →
      st2.mejor_fitness ≤ st.mejor_fitness
  | 0, st, st2, h => by
      simp only [iterarGeneraciones, Option.some.injEq] at h
      rw [← h]
  | g + 1, st, st2, h => by
      rw [iterarGeneraciones] at h
      cases hg : genStep o dep tam tc tm st with
      | none => rw [hg] at h; exact absurd h (by simp)
      | some stm =>
          rw [hg] at h
          exact (iterar_mejor_le o dep tam tc tm g stm st2 h).trans
            (genStep_mejor_le o dep tam tc tm st stm hg)

/-- Generation iteration splits along sums of generation counts. -/
theorem iterar_add {σ : Type} (o : Oracle σ) (dep : Deposito)
    (tam : ℕ) (tc tm : ℚ) :
    ∀ (a b : ℕ) (st : GAState σ),
      iterarGeneraciones o dep tam tc tm (a + b) st =
        (iterarGeneraciones o dep tam tc tm a st).bind
          (iterarGeneraciones o dep tam tc tm b)
  | 0, b, st => by
      simp [iterarGeneraciones]
  | a + 1, b, st => by
      rw [show a + 1 + b = (a + b) + 1 by omega]
      rw [iterarGeneraciones, iterarGeneraciones]
      cases hg : genStep o dep tam tc tm st with
      | none => simp
      | some stm => exact iterar_add o dep tam tc tm a b stm

/-- C6 — Monotone best-so-far: for any oracle behaviour (in particular
any fixed seed) and any hyperparameters, the best-so-far fitness is
non-increasing across successive completed generations, and the snapshot
`(mejor_individuo, mejor_fitness)` changes in a generation only when that
generation's minimum fitness strictly improves on the previous best. -/
theorem algoritmo_genetico_mejor_monotono :
    (∀ (σ : Type) (o : Oracle σ) (dep : Deposito) (tam : ℕ) (tc tm : ℚ)
        (g1 g2 : ℕ) (st st1 st2 : GAState σ),
        g1 ≤ g2 →
        iterarGeneraciones o dep tam tc tm g1 st = some st1 →
        iterarGeneraciones o dep tam tc tm g2 st = some st2 →
        st2.mejor_fitness ≤ st1.mejor_fitness) ∧
    (∀ (σ : Type) (o : Oracle σ) (dep : Deposito) (tam : ℕ) (tc tm : ℚ)
        (st st2 : GAState σ),
        genStep o dep tam tc tm st = some st2 →
        (st2.mejor_individuo, st2.mejor_fitness) ≠
          (st.mejor_individuo, st.mejor_fitness) →
        ∃ m, pyMin (st.poblacion.map (fun ind => (evaluar_ruta ind dep).1)) =
            some m ∧ (m : WithTop ℝ) < st.mejor_fitness) := by
  constructor
  · intro σ o dep tam tc tm g1 g2 st st1 st2 hle h1 h2
    obtain ⟨d, hd⟩ := Nat.le.dest hle
    rw [← hd, iterar_add, h1] at h2
    exact iterar_mejor_le o dep tam tc tm d st1 st2 h2
  · intro σ o dep tam tc tm st st2 h hne
    simp only [genStep] at h
    split at h
    · exact absurd h (by simp)
    · rename_i m hm
      split at h
      · exact absurd h (by simp)
      · injection h with h2
        subst h2
        by_cases hcond : ((st.poblacion.map
            (fun ind => (evaluar_ruta ind dep).1)).getD
              ((st.poblacion.map (fun ind => (evaluar_ruta ind dep).1)).indexOf m)
              0 : WithTop ℝ) < st.mejor_fitness
        · refine ⟨m, hm, ?_⟩
          have hmem := pyMin_mem _ m hm
          rw [getD_indexOf_self _ m hmem] at hcond
          exact hcond
        · exfalso
          apply hne
          simp only [if_neg hcond]

/-- Witness for C6 at a trivial concrete state: zero completed
generations on each side. -/
theorem algoritmo_genetico_mejor_monotono_witness :
    (0 : ℕ) ≤ 0 ∧
      (GAState.mk ([] : List (List Cliente)) none ⊤ () : GAState Unit).mejor_fitness ≤
        (GAState.mk ([] : List (List Cliente)) none ⊤ () : GAState Unit).mejor_fitness :=
  ⟨by decide,
    algoritmo_genetico_mejor_monotono.1 Unit trivOracle depositoDemo 3 0 0 0 0
      ⟨[], none, ⊤, ()⟩ ⟨[], none, ⊤, ()⟩ ⟨[], none, ⊤, ()⟩ (by decide) rfl rfl⟩

/-- One generation preserves the fact that the recorded best fitness is
the evaluation of the recorded best route. -/
theorem genStep_consistente {σ : Type} (o : Oracle σ) (dep : Deposito)
    (tam : ℕ) (tc tm : ℚ) (st st2 : GAState σ)
    (h : genStep o dep tam tc tm st = some st2)
    (hc : ∀ ind, st.mejor_individuo = some ind →
      st.mejor_fitness = ((evaluar_ruta ind dep).1 : WithTop ℝ)) :
    ∀ ind, st2.mejor_individuo = some ind →
      st2.mejor_fitness = ((evaluar_ruta ind dep).1 : WithTop ℝ) := by
  simp only [genStep] at h
  split at h
  · exact absurd h (by simp)
  · rename_i m hm
    split at h
    · exact absurd h (by simp)
    · injection h with h2
      subst h2
      intro ind hind
      by_cases hcond : ((st.poblacion.map
          (fun i => (evaluar_ruta i dep).1)).getD
            ((st.poblacion.map (fun i => (evaluar_ruta i dep).1)).indexOf m) 0 :
          WithTop ℝ) < st.mejor_fitness
      · simp only [if_pos hcond] at hind ⊢
        have hmem := pyMin_mem _ m hm
        have hidx : (st.poblacion.map
            (fun i => (evaluar_ruta i dep).1)).indexOf m <
            (st.poblacion.map (fun i => (evaluar_ruta i dep).1)).length :=
          List.indexOf_lt_length.mpr hmem
        have hidxp : (st.poblacion.map
            (fun i => (evaluar_ruta i dep).1)).indexOf m < st.poblacion.length := by
          rw [List.length_map] at hidx
          exact hidx
        have hig : ind = st.poblacion.getD
            ((st.poblacion.map (fun i => (evaluar_ruta i dep).1)).indexOf m) [] := by
          injection hind with h3
          exact h3.symm
        rw [hig, List.getD_eq_getElem st.poblacion [] hidxp,
          List.getD_eq_getElem _ 0 hidx, List.getElem_map]
      · simp only [if_neg hcond] at hind ⊢
        exact hc ind hind

/-- Iterating generations preserves best-fitness consistency. -/
theorem iterar_consistente {σ : Type} (o : Oracle σ) (dep : Deposito)
    (tam : ℕ) (tc tm : ℚ) :
    ∀ (g : ℕ) (st st2 : GAState σ),
      iterarGeneraciones o dep tam tc tm g st = some st2 →
      (∀ ind, st.mejor_individuo = some ind →
        st.mejor_fitness = ((evaluar_ruta ind dep).1 : WithTop ℝ)) →
      ∀ ind, st2.mejor_individuo = some ind →
        st2.mejor_fitness = ((evaluar_ruta ind dep).1 : WithTop ℝ)
  | 0, st, st2, h, hc => by
      simp only [iterarGeneraciones, Option.some.injEq] at h
      rw [← h]
      exact hc
  | g + 1, st, st2, h, hc => by
      rw [iterarGeneraciones] at h
      cases hg : genStep o dep tam tc tm st with
      | none => rw [hg] at h; exact absurd h (by simp)
      | some stm =>
          rw [hg] at h
          exact iterar_consistente o dep tam tc tm g stm st2 h
            (genStep_consistente o dep tam tc tm st stm hg hc)

/-- C10 — Result consistency: whenever `algoritmo_genetico` returns a
non-`None` best route with its fitness, that fitness equals the fitness
component of `evaluar_ruta` re-applied to the returned route with the
same depot. -/
theorem algoritmo_genetico_fitness_consistente :
    ∀ (σ : Type) (o : Oracle σ) (clientes : List Cliente) (dep : Deposito)
      (tam gens : ℕ) (tc tm : ℚ) (s : σ) (ind : List Cliente) (fit : WithTop ℝ),
      algoritmo_genetico o clientes dep tam gens tc tm s = some (some ind, fit) →
      fit = ((evaluar_ruta ind dep).1 : WithTop ℝ) := by
  intro σ o clientes dep tam gens tc tm s ind fit h
  simp only [algoritmo_genetico, Option.map_eq_some'] at h
  obtain ⟨st, hst, hfeq⟩ := h
  have hcons := iterar_consistente o dep tam tc tm gens _ st hst
    (fun i0 hi0 => absurd hi0 (by simp))
  have h1 : st.mejor_individuo = some ind := congrArg Prod.fst hfeq
  have h2 : st.mejor_fitness = fit := congrArg Prod.snd hfeq
  rw [← h2]
  exact hcons ind h1

/-- A permutation of a constant list is that list. -/
theorem perm_replicate_eq {α : Type} {l : List α} {n : ℕ} {a : α}
    (h : l.Perm (List.replicate n a)) : l = List.replicate n a := by
  refine List.eq_replicate_iff.mpr ⟨?_, ?_⟩
  · rw [h.length_eq, List.length_replicate]
  · intro b hb
    exact (List.mem_replicate.mp (h.subset hb)).2

/-- Indexing a constant list of pairs along in-range indices yields the
constant list of the sampled length. -/
theorem filterMap_pares_replicate (n : ℕ) (x : List Cliente × ℝ) :
    ∀ (idxs : List ℕ), (∀ i ∈ idxs, i < n) →
      idxs.filterMap (fun i => (List.replicate n x)[i]?) =
        List.replicate idxs.length x
  | [], _ => rfl
  | i :: idxs, h => by
      rw [List.filterMap_cons]
      have hi : i < n := h i (List.mem_cons_self i idxs)
      rw [List.getElem?_replicate, if_pos hi]
      rw [filterMap_pares_replicate n x idxs
        (fun j hj => h j (List.mem_cons_of_mem i hj))]
      rw [List.length_cons, List.replicate_succ]

/-- Tournament selection over a population of identical individuals with
identical fitnesses returns that individual (whatever the random sample
was). -/
theorem seleccion_replicada {σ : Type} (o : Oracle σ) (n : ℕ)
    (p : List Cliente) (f : ℝ) (s : σ) (h3 : 3 ≤ n) :
    seleccion_por_torneo o (List.replicate n p) (List.replicate n f) 3 s =
      some (p, (o.sampleIdx n 3 s).2) := by
  obtain ⟨hlen3, hbound, -⟩ := o.sampleIdx_mem n 3 s h3
  simp only [seleccion_por_torneo, List.zip_replicate, min_self,
    List.length_replicate]
  rw [if_pos h3]
  rw [filterMap_pares_replicate n (p, f) (o.sampleIdx n 3 s).1 hbound, hlen3]
  have hsorted : (List.replicate 3 ((p : List Cliente), f)).insertionSort
      (fun a b => a.2 ≤ b.2) = List.replicate 3 (p, f) :=
    perm_replicate_eq (List.perm_insertionSort _ _)
  rw [hsorted]
  rfl

/-- The initial population consists of permutations of the input
customers, one per slot. -/
theorem crearLoop_perm {σ : Type} (o : Oracle σ) (clientes : List Cliente) :
    ∀ (k : ℕ) (acc : List (List Cliente)) (s : σ),
      (∀ g ∈ acc, g.Perm clientes) →
      (∀ g ∈ (crearLoop o clientes k acc s).1, g.Perm clientes) ∧
        (crearLoop o clientes k acc s).1.length = acc.length + k
  | 0, acc, s, hacc => ⟨hacc, rfl⟩
  | k + 1, acc, s, hacc => by
      rw [crearLoop]
      have h := crearLoop_perm o clientes k (acc ++ [(o.shuffle clientes s).1])
        (o.shuffle clientes s).2 ?hacc2
      case hacc2 =>
        intro g hg
        rcases List.mem_append.mp hg with hg | hg
        · exact hacc g hg
        · rw [List.mem_singleton.mp hg]
          exact o.shuffle_perm clientes s
      refine ⟨h.1, ?_⟩
      rw [h.2, List.length_append, List.length_cons, List.length_nil]
      omega

/-- C7 — the genetic pipeline crashes on a degenerate cluster: on a
single-customer cluster with crossover rate `1`, the first reproduction
step reaches `random.sample(range(1), 2)` inside `cruce_ordenado`, which
raises `ValueError` (modelled by `none`), for every oracle, seed, depot
and mutation rate. -/
theorem algoritmo_genetico_singleton_falla :
    ∀ (σ : Type) (o : Oracle σ) (s : σ) (c : Cliente) (dep : Deposito)
      (tm : ℚ), algoritmo_genetico o [c] dep 3 1 1 tm s = none := by
  intro σ o s c dep tm
  simp only [algoritmo_genetico]
  have hpob : (crear_poblacion_inicial o [c] 3 s).1 = List.replicate 3 [c] := by
    obtain ⟨hall, hlen⟩ := crearLoop_perm o [c] 3 [] s (by simp)
    refine List.eq_replicate_iff.mpr ⟨by simpa using hlen, ?_⟩
    intro g hg
    exact List.perm_singleton.mp (hall g hg)
  rw [hpob]
  have hrep : ∀ s2 : σ, reproducirLoop o (List.replicate 3 [c])
      ((List.replicate 3 [c]).map (fun ind => (evaluar_ruta ind dep).1))
      1 tm 3 [] s2 = none := by
    intro s2
    rw [List.map_replicate]
    rw [show (3 : ℕ) = 2 + 1 from rfl]
    rw [reproducirLoop]
    have hsel : ∀ s3 : σ, seleccion_por_torneo o (List.replicate (2 + 1) [c])
        (List.replicate (2 + 1) ((evaluar_ruta [c] dep).1)) 3 s3 =
        some ([c], (o.sampleIdx (2 + 1) 3 s3).2) :=
      fun s3 => seleccion_replicada o (2 + 1) [c] _ s3 (by omega)
    simp only [hsel, Option.bind_eq_bind, Option.some_bind]
    rw [if_pos (o.randFloat_mem _).2]
    simp only [cruceEnAlgoritmo, List.length_cons, List.length_nil]
    rw [if_neg (by omega)]
    rfl
  have hgen : genStep o dep 3 1 tm
      ⟨List.replicate 3 [c], none, ⊤, (crear_poblacion_inicial o [c] 3 s).2⟩ =
      none := by
    simp only [genStep]
    split
    · rfl
    · split
      · rfl
      · rename_i m hm nueva hnueva
        rw [hrep _] at hnueva
        exact absurd hnueva (by simp)
  rw [show (1 : ℕ) = 0 + 1 from rfl, iterarGeneraciones, hgen]
  rfl

/-- With the deterministic oracle and mutation rate `0`, the mutation
loop is the identity. -/
theorem mutLoop_trivial (n : ℕ) :
    ∀ (idxs : List ℕ) (individuo : List Cliente) (s : Unit),
      mutLoop trivOracle 0 n idxs individuo s = (individuo, ())
  | [], individuo, s => rfl
  | i :: idxs, individuo, s => by
      rw [mutLoop, if_neg (by simp [trivOracle])]
      exact mutLoop_trivial n idxs individuo _

/-- With the deterministic oracle, crossover rate `0` and mutation rate
`0`, reproduction clones the common individual of a constant population. -/
theorem reproducirLoop_trivial (p : List Cliente) (f : ℝ) :
    ∀ (k : ℕ) (acc : List (List Cliente)) (s : Unit),
      reproducirLoop trivOracle (List.replicate 3 p) (List.replicate 3 f)
          0 0 k acc s = some (acc ++ List.replicate k p, ())
  | 0, acc, s => by
      rw [reproducirLoop]
      simp
  | k + 1, acc, s => by
      rw [reproducirLoop]
      have hsel : ∀ s3 : Unit, seleccion_por_torneo trivOracle
          (List.replicate 3 p) (List.replicate 3 f) 3 s3 =
          some (p, (trivOracle.sampleIdx 3 3 s3).2) :=
        fun s3 => seleccion_replicada trivOracle 3 p f s3 (le_refl 3)
      simp only [hsel, Option.bind_eq_bind, Option.some_bind]
      rw [if_neg (by simp [trivOracle])]
      have hmu : ∀ s4 : Unit, mutacion_intercambio trivOracle p 0 s4 = (p, ()) :=
        fun s4 => mutLoop_trivial p.length (List.range p.length) p s4
      simp only [hmu]
      rw [reproducirLoop_trivial p f k (acc ++ [p]) ()]
      rw [List.append_assoc, List.singleton_append, ← List.replicate_succ]

/-- Witness for C10: a full concrete run (three identical individuals,
one generation, no crossover, no mutation) returns the route
`[clienteA, clienteB]` with exactly its re-evaluated fitness. -/
theorem algoritmo_genetico_fitness_consistente_witness :
    algoritmo_genetico trivOracle [clienteA, clienteB] depositoDemo 3 1 0 0 () =
        some (some [clienteA, clienteB],
          ((evaluar_ruta [clienteA, clienteB] depositoDemo).1 : WithTop ℝ)) ∧
      ((evaluar_ruta [clienteA, clienteB] depositoDemo).1 : WithTop ℝ) =
        ((evaluar_ruta [clienteA, clienteB] depositoDemo).1 : WithTop ℝ) := by
  have hgen : genStep trivOracle depositoDemo 3 0 0
      ⟨List.replicate 3 [clienteA, clienteB], none, ⊤, ()⟩ =
      some ⟨List.replicate 3 [clienteA, clienteB], some [clienteA, clienteB],
        ((evaluar_ruta [clienteA, clienteB] depositoDemo).1 : WithTop ℝ), ()⟩ := by
    simp only [genStep]
    rw [List.map_replicate]
    have hpm : pyMin (List.replicate 3
        ((evaluar_ruta [clienteA, clienteB] depositoDemo).1)) =
        some ((evaluar_ruta [clienteA, clienteB] depositoDemo).1) := by
      rw [show List.replicate 3 ((evaluar_ruta [clienteA, clienteB] depositoDemo).1) =
        [(evaluar_ruta [clienteA, clienteB] depositoDemo).1,
          (evaluar_ruta [clienteA, clienteB] depositoDemo).1,
          (evaluar_ruta [clienteA, clienteB] depositoDemo).1] from rfl]
      simp [pyMin]
    split
    · rename_i hnone
      rw [hpm] at hnone
      exact absurd hnone (by simp)
    · rename_i m hsome
      rw [hpm] at hsome
      injection hsome with hme
      subst hme
      split
      · rename_i hnone2
        rw [reproducirLoop_trivial [clienteA, clienteB]
          ((evaluar_ruta [clienteA, clienteB] depositoDemo).1) 3 [] ()] at hnone2
        exact absurd hnone2 (by simp)
      · rename_i nueva hnueva
        rw [reproducirLoop_trivial [clienteA, clienteB]
          ((evaluar_ruta [clienteA, clienteB] depositoDemo).1) 3 [] ()] at hnueva
        injection hnueva with hn
        subst hn
        have hidx : (List.replicate 3
            ((evaluar_ruta [clienteA, clienteB] depositoDemo).1)).indexOf
            ((evaluar_ruta [clienteA, clienteB] depositoDemo).1) = 0 := by
          rw [show List.replicate 3
            ((evaluar_ruta [clienteA, clienteB] depositoDemo).1) =
            [(evaluar_ruta [clienteA, clienteB] depositoDemo).1,
              (evaluar_ruta [clienteA, clienteB] depositoDemo).1,
              (evaluar_ruta [clienteA, clienteB] depositoDemo).1] from rfl]
          simp
        rw [hidx]
        rw [if_pos (WithTop.coe_lt_top _)]
        rfl
  have hmain : algoritmo_genetico trivOracle [clienteA, clienteB] depositoDemo
      3 1 0 0 () = some (some [clienteA, clienteB],
        ((evaluar_ruta [clienteA, clienteB] depositoDemo).1 : WithTop ℝ)) := by
    simp only [algoritmo_genetico]
    rw [show crear_poblacion_inicial trivOracle [clienteA, clienteB] 3 () =
      (List.replicate 3 [clienteA, clienteB], ()) from rfl]
    rw [show (1 : ℕ) = 0 + 1 from rfl, iterarGeneraciones, hgen]
    rfl
  exact ⟨hmain, algoritmo_genetico_fitness_consistente Unit trivOracle
    [clienteA, clienteB] depositoDemo 3 1 0 0 () [clienteA, clienteB] _ hmain⟩

end Genetico
